import Mathlib

/-!
Verification of the DBX embedded database contract.

The repository ships only the boundary headers (`src/lang/c/include/dbx.h`,
`src/core/dbx-ffi/dbx.h`), a header-only C++ wrapper
(`src/lang/cpp/include/dbx.hpp`), and example/benchmark callers; the engine
behind `dbx_*` is not part of the visible sources.  Engine-level behaviour is
therefore modelled from the specification (each such definition says so in its
doc comment), while the C++ wrapper logic is embedded directly from
`dbx.hpp`.
-/

namespace DBX

/-- Keys are raw byte sequences (each byte a `Nat < 256` in the C API; the
byte bound is irrelevant to ordering and lookup, so bytes are plain `Nat`). -/
abbrev Key := List Nat

/-- Values are raw byte sequences. -/
abbrev Val := List Nat

/-- Modelled from the spec: an Entry/Version is a
`(value, commit_timestamp, tombstone_flag)` tuple attached to a key
(spec section 3); the engine storing these is not in the visible sources. -/
structure Version where
  value : Val
  commit_ts : Nat
  tombstone : Bool
deriving DecidableEq

/-- The per-table storage: an ordered association of keys to version lists. -/
abbrev Rows := List (Key × List Version)

/-- Modelled from the spec: the Database aggregate — all tables plus the
global timestamp counter (spec section 3); the engine is not in the visible
sources.  The 64-bit counter is modelled as `Nat` (the spec's invariant is
strict growth, which presumes no wraparound). -/
structure DB where
  clock : Nat
  tables : List (String × Rows)
deriving DecidableEq

/-- Byte-lexicographic strict order on keys (memcmp-style: a strict prefix
sorts first). -/
def lexLt : Key → Key → Bool
  | [], [] => false
  | [], _ :: _ => true
  | _ :: _, [] => false
  | a :: as, b :: bs =>
    if a < b then true
    else if b < a then false
    else lexLt as bs

/-- Byte-lexicographic reflexive order on keys. -/
def lexLe (a b : Key) : Bool := a == b || lexLt a b

/-- A freshly opened (in-memory) database: no tables, counter at zero. -/
def db0 : DB := ⟨0, []⟩

/-- The rows of table `t` (a missing table reads as empty, per spec). -/
def tableRows (db : DB) (t : String) : Rows :=
  (db.tables.lookup t).getD []

/-- The stored versions of key `k` within a table's rows. -/
def getVersions (rows : Rows) (k : Key) : List Version :=
  (rows.lookup k).getD []

/-- Insert a version for key `k` into sorted rows: append to the key's
version list if present, otherwise create the key at its sorted position. -/
def insertVer (k : Key) (v : Version) : Rows → Rows
  | [] => [(k, [v])]
  | (k', vs) :: rest =>
    if k = k' then (k', vs ++ [v]) :: rest
    else if lexLt k k' then (k, [v]) :: (k', vs) :: rest
    else (k', vs) :: insertVer k v rest

/-- Replace (or create) the rows of table `t`. -/
def setTable (t : String) (r : Rows) : List (String × Rows) → List (String × Rows)
  | [] => [(t, r)]
  | (t', r') :: rest =>
    if t = t' then (t, r) :: rest else (t', r') :: setTable t r rest

/-- Store one version for `(t, k)`; tables are created implicitly on first
write (spec section 4.1). -/
def putVersion (db : DB) (t : String) (k : Key) (v : Version) : DB :=
  { db with tables := setTable t (insertVer k v (tableRows db t)) db.tables }

/-- One step of the as-of-`T` version selection: keep the candidate with the
highest `commit_ts ≤ T`, a later-stored version winning ties (buffer order). -/
def pick (T : Nat) (acc : Option Version) (v : Version) : Option Version :=
  if v.commit_ts ≤ T then
    match acc with
    | none => some v
    | some w => if w.commit_ts ≤ v.commit_ts then some v else some w
  else acc

/-- The highest version with `commit_ts ≤ T` in a version list (later-stored
versions win timestamp ties). -/
def latestLe (T : Nat) (vs : List Version) : Option Version :=
  vs.foldl (pick T) none

/-- Modelled from the spec: `dbx_get_snapshot` — the as-of read: the highest
version with `commit_timestamp ≤ T`, "not found" if that version is a
tombstone or none exists (spec sections 3, 4.2); the engine is not in the
visible sources. -/
def getSnapshot (db : DB) (t : String) (k : Key) (T : Nat) : Option Val :=
  match latestLe T (getVersions (tableRows db t) k) with
  | none => none
  | some v => if v.tombstone then none else some v.value

/-- Modelled from the spec: `dbx_current_timestamp` reads the counter without
advancing it. -/
def currentTimestamp (db : DB) : Nat := db.clock

/-- Modelled from the spec: `dbx_allocate_commit_ts` advances the counter and
returns a fresh value strictly greater than all previous ones. -/
def allocateCommitTs (db : DB) : Nat × DB :=
  (db.clock + 1, { db with clock := db.clock + 1 })

/-- Modelled from the spec: `dbx_insert_versioned` — insert a version stamped
with a caller-supplied commit timestamp (spec section 4.2). -/
def insertVersioned (db : DB) (t : String) (k : Key) (v : Val) (ts : Nat) : DB :=
  putVersion db t k ⟨v, ts, false⟩

/-- Modelled from the spec: plain `dbx_insert` is the versioned insert at a
freshly allocated timestamp (spec section 4.2). -/
def insert (db : DB) (t : String) (k : Key) (v : Val) : DB :=
  let p := allocateCommitTs db
  insertVersioned p.2 t k v p.1

/-- Modelled from the spec: `dbx_delete` writes a tombstone version at a
freshly allocated timestamp (spec sections 4.1, 4.2). -/
def delete (db : DB) (t : String) (k : Key) : DB :=
  let p := allocateCommitTs db
  putVersion p.2 t k ⟨[], p.1, true⟩

/-- Modelled from the spec: plain `dbx_get` is the snapshot read at the
current timestamp (spec section 4.2). -/
def get (db : DB) (t : String) (k : Key) : Option Val :=
  getSnapshot db t k (currentTimestamp db)

/-- The current visible entry of one row as of timestamp `T` (none for
tombstones and for keys with no version yet visible). -/
def currentEntry (T : Nat) (p : Key × List Version) : Option (Key × Val) :=
  match latestLe T p.2 with
  | none => none
  | some v => if v.tombstone then none else some (p.1, v.value)

/-- Modelled from the spec: `dbx_scan` — all current non-tombstone entries in
key order (spec section 4.1). -/
def scan (db : DB) (t : String) : List (Key × Val) :=
  (tableRows db t).filterMap (currentEntry db.clock)

/-- Modelled from the spec: `dbx_range` — current non-tombstone entries with
`start ≤ key < end`, half-open, in key order (spec section 4.1). -/
def range (db : DB) (t : String) (a b : Key) : List (Key × Val) :=
  (tableRows db t).filterMap fun p =>
    if lexLe a p.1 && lexLt p.1 b then currentEntry db.clock p else none

/-- Modelled from the spec: `dbx_count` — the number of keys with a current
non-tombstone version (spec section 4.1). -/
def count (db : DB) (t : String) : Nat := (scan db t).length

/-! ## Status codes (from `src/lang/c/include/dbx.h`, lines 23-29) -/

def DBX_OK : Int := 0
def DBX_ERR_NULL_PTR : Int := -1
def DBX_ERR_INVALID_UTF8 : Int := -2
def DBX_ERR_DATABASE : Int := -3
def DBX_ERR_NOT_FOUND : Int := -4
def DBX_ERR_INVALID_OP : Int := -5

/-- The fixed set of boundary status codes declared in
`src/lang/c/include/dbx.h`. -/
def errorCodes : List Int :=
  [DBX_OK, DBX_ERR_NULL_PTR, DBX_ERR_INVALID_UTF8, DBX_ERR_DATABASE,
   DBX_ERR_NOT_FOUND, DBX_ERR_INVALID_OP]

/-- The status codes declared in the engine-side FFI header
`src/core/dbx-ffi/dbx.h` (lines 14-22): a subset of the boundary set, with
the same values. -/
def coreErrorCodes : List Int :=
  [DBX_OK, DBX_ERR_NULL_PTR, DBX_ERR_INVALID_UTF8, DBX_ERR_DATABASE,
   DBX_ERR_NOT_FOUND]

/-- The status `dbx_get` reports: `DBX_OK` with a value, or the distinct
`DBX_ERR_NOT_FOUND` (spec sections 6, 7). -/
def getStatus (db : DB) (t : String) (k : Key) : Int :=
  match get db t k with
  | some _ => DBX_OK
  | none => DBX_ERR_NOT_FOUND

/-- The status `dbx_get_snapshot` reports. -/
def getSnapshotStatus (db : DB) (t : String) (k : Key) (T : Nat) : Int :=
  match getSnapshot db t k T with
  | some _ => DBX_OK
  | none => DBX_ERR_NOT_FOUND

/-! ## Transaction engine (modelled from the spec, section 4.3) -/

/-- Transaction lifecycle states: `Open → Committed` or
`Open → RolledBack` (terminal). -/
inductive TxState where
  | Open
  | Committed
  | RolledBack
deriving DecidableEq

/-- A buffered transactional operation. -/
inductive Op where
  | ins (table : String) (key : Key) (value : Val)
  | del (table : String) (key : Key)
deriving DecidableEq

/-- Modelled from the spec: a Transaction is an ordered list of pending
operations plus a lifecycle state (spec section 3); the engine is not in the
visible sources. -/
structure Tx where
  state : TxState
  buffer : List Op
deriving DecidableEq

/-- Modelled from the spec: `dbx_begin_transaction` creates an Open
transaction with an empty buffer, touching no shared state. -/
def beginTransaction (_db : DB) : Tx := ⟨TxState.Open, []⟩

/-- Modelled from the spec: `dbx_transaction_insert` appends to the buffer of
an Open transaction and touches no shared state; on a non-Open transaction it
is an invalid-operation error. -/
def txInsert (tx : Tx) (t : String) (k : Key) (v : Val) : Int × Tx :=
  if tx.state = TxState.Open then
    (DBX_OK, { tx with buffer := tx.buffer ++ [Op.ins t k v] })
  else (DBX_ERR_INVALID_OP, tx)

/-- Modelled from the spec: `dbx_transaction_delete`, as `txInsert`. -/
def txDelete (tx : Tx) (t : String) (k : Key) : Int × Tx :=
  if tx.state = TxState.Open then
    (DBX_OK, { tx with buffer := tx.buffer ++ [Op.del t k] })
  else (DBX_ERR_INVALID_OP, tx)

/-- Apply one buffered operation at a fixed commit timestamp. -/
def applyOpAt (ts : Nat) (db : DB) (op : Op) : DB :=
  match op with
  | .ins t k v => putVersion db t k ⟨v, ts, false⟩
  | .del t k => putVersion db t k ⟨[], ts, true⟩

/-- Apply a whole buffer, in buffer order, at one commit timestamp. -/
def applyBufferAt (ts : Nat) (ops : List Op) (db : DB) : DB :=
  ops.foldl (applyOpAt ts) db

/-- Modelled from the spec: `dbx_transaction_commit` — on an Open
transaction, allocate one commit timestamp and apply every buffered operation
in buffer order at that single timestamp (transition to Committed); on any
internal failure (here injected through `fail`) apply nothing and report an
error; on a non-Open transaction report the invalid-operation error
(spec section 4.3). -/
def txCommit (fail : Bool) (tx : Tx) (db : DB) : Int × Tx × DB :=
  if tx.state = TxState.Open then
    if fail then (DBX_ERR_DATABASE, tx, db)
    else
      let p := allocateCommitTs db
      (DBX_OK, { tx with state := TxState.Committed }, applyBufferAt p.1 tx.buffer p.2)
  else (DBX_ERR_INVALID_OP, tx, db)

/-- Modelled from the spec: `dbx_transaction_rollback` — transition to
RolledBack, discard the buffer, no effect on stored state
(spec section 4.3). -/
def txRollback (_tx : Tx) (db : DB) : Tx × DB :=
  (⟨TxState.RolledBack, []⟩, db)

/-- Run a list of buffering calls (`txInsert`/`txDelete`) against a
transaction, keeping only the transaction (the calls take no database). -/
def bufferOp (tx : Tx) (op : Op) : Tx :=
  match op with
  | .ins t k v => (txInsert tx t k v).2
  | .del t k => (txDelete tx t k).2

def bufferAll (tx : Tx) (ops : List Op) : Tx :=
  ops.foldl bufferOp tx

/-- Non-transactional application of one operation (auto-timestamped). -/
def applyOp (db : DB) (op : Op) : DB :=
  match op with
  | .ins t k v => insert db t k v
  | .del t k => delete db t k

/-- Non-transactional application of a sequence of operations. -/
def applyOps (db : DB) (ops : List Op) : DB :=
  ops.foldl applyOp db

/-- Does a buffered operation target table `t`, key `k`? -/
def opTouches (op : Op) (t : String) (k : Key) : Bool :=
  match op with
  | .ins t' k' _ => t' = t && k' = k
  | .del t' k' => t' = t && k' = k

/-- The buffered operations targeting `(t, k)`, in buffer order. -/
def opsOn (B : List Op) (t : String) (k : Key) : List Op :=
  B.filter (opTouches · t k)

/-- The last buffered operation targeting `(t, k)`, if any: the one whose
effect is visible after commit. -/
def lastWrite (B : List Op) (t : String) (k : Key) : Option Op :=
  (opsOn B t k).getLast?

/-- The version a buffered operation stores when applied at timestamp `ts`. -/
def verOf (ts : Nat) (op : Op) : Version :=
  match op with
  | .ins _ _ v => ⟨v, ts, false⟩
  | .del _ _ => ⟨[], ts, true⟩

/-! ## Invariants -/

/-- Strict byte-lexicographic key order as a proposition. -/
def KeyLt (a b : Key) : Prop := lexLt a b = true

instance : DecidableRel KeyLt := fun a b => by unfold KeyLt; infer_instance

/-- A table's rows are strictly sorted by key. -/
def RowsSorted (rows : Rows) : Prop := (rows.map Prod.fst).Pairwise KeyLt

/-- Every table of the database is sorted. -/
def DBSorted (db : DB) : Prop := ∀ p ∈ db.tables, RowsSorted p.2

/-- Every stored version's commit timestamp is at most the clock: committed
writes never carry timestamps from the future (spec section 3). -/
def DBBounded (db : DB) : Prop :=
  ∀ p ∈ db.tables, ∀ q ∈ p.2, ∀ v ∈ q.2, v.commit_ts ≤ db.clock

instance : Decidable (RowsSorted rows) := by unfold RowsSorted; infer_instance

instance : Decidable (DBSorted db) := by unfold DBSorted; exact List.decidableBAll _ _

instance : Decidable (DBBounded db) := by unfold DBBounded; exact List.decidableBAll _ _

/-! ## Persistence (modelled from the spec, section 4.6)

`save_to_file` serializes the entire database (all tables' versions and the
timestamp counter) to one file, here a `List Nat` of tokens;
`load_from_file` reconstructs the database from it. -/

def encNat (n : Nat) : List Nat := [n]

def decNat : List Nat → Option (Nat × List Nat)
  | [] => none
  | n :: rest => some (n, rest)

def encList (enc : α → List Nat) (xs : List α) : List Nat :=
  xs.length :: xs.foldr (fun x acc => enc x ++ acc) []

def decListAux (dec : List Nat → Option (α × List Nat)) :
    Nat → List Nat → Option (List α × List Nat)
  | 0, ts => some ([], ts)
  | n + 1, ts =>
    match dec ts with
    | none => none
    | some (x, ts1) =>
      match decListAux dec n ts1 with
      | none => none
      | some (xs, ts2) => some (x :: xs, ts2)

def decList (dec : List Nat → Option (α × List Nat)) (ts : List Nat) :
    Option (List α × List Nat) :=
  match decNat ts with
  | none => none
  | some (n, ts1) => decListAux dec n ts1

def encBool (b : Bool) : List Nat := [if b then 1 else 0]

def decBool : List Nat → Option (Bool × List Nat)
  | [] => none
  | n :: rest => some (n ≠ 0, rest)

def encBytes (bs : List Nat) : List Nat := encList encNat bs

def decBytes (ts : List Nat) : Option (List Nat × List Nat) := decList decNat ts

def encStr (s : String) : List Nat := encList encNat (s.data.map Char.toNat)

def decStr (ts : List Nat) : Option (String × List Nat) :=
  match decList decNat ts with
  | none => none
  | some (ns, rest) => some (⟨ns.map Char.ofNat⟩, rest)

def encVer (v : Version) : List Nat :=
  encBytes v.value ++ encNat v.commit_ts ++ encBool v.tombstone

def decVer (ts : List Nat) : Option (Version × List Nat) :=
  match decBytes ts with
  | none => none
  | some (val, ts1) =>
    match decNat ts1 with
    | none => none
    | some (c, ts2) =>
      match decBool ts2 with
      | none => none
      | some (tb, ts3) => some (⟨val, c, tb⟩, ts3)

def encRow (p : Key × List Version) : List Nat :=
  encBytes p.1 ++ encList encVer p.2

def decRow (ts : List Nat) : Option ((Key × List Version) × List Nat) :=
  match decBytes ts with
  | none => none
  | some (k, ts1) =>
    match decList decVer ts1 with
    | none => none
    | some (vs, ts2) => some ((k, vs), ts2)

def encTable (p : String × Rows) : List Nat :=
  encStr p.1 ++ encList encRow p.2

def decTable (ts : List Nat) : Option ((String × Rows) × List Nat) :=
  match decStr ts with
  | none => none
  | some (t, ts1) =>
    match decList decRow ts1 with
    | none => none
    | some (rows, ts2) => some ((t, rows), ts2)

def encDB (db : DB) : List Nat :=
  encNat db.clock ++ encList encTable db.tables

def decDB (ts : List Nat) : Option (DB × List Nat) :=
  match decNat ts with
  | none => none
  | some (c, ts1) =>
    match decList decTable ts1 with
    | none => none
    | some (tbs, ts2) => some (⟨c, tbs⟩, ts2)

/-- Modelled from the spec: `dbx_save_to_file` serializes the whole database
to one file (spec section 4.6); the engine is not in the visible sources. -/
def saveToFile (db : DB) : List Nat := encDB db

/-- Modelled from the spec: `dbx_load_from_file` reconstructs a database from
a file, requiring the whole file to be consumed. -/
def loadFromFile (file : List Nat) : Option DB :=
  match decDB file with
  | none => none
  | some (db, rest) => if rest = [] then some db else none

/-! ## The C++ wrapper (embedded from `src/lang/cpp/include/dbx.hpp`)

The wrapper's control flow is pure given the outcome of the underlying
`dbx_*` call, so each method is embedded as a function of that outcome.
Thrown `DatabaseError`s are `Except.error` with the source's message. -/

/-- Outcome of a C `dbx_get`/`dbx_get_snapshot` call: the returned status and
the bytes behind `out_value`/`out_len` (meaningful when the status is
`DBX_OK`). -/
structure FFIValue where
  status : Int
  bytes : List Nat
deriving DecidableEq

/-- `Database::get` (dbx.hpp lines 107-128): `DBX_ERR_NOT_FOUND` maps to
`nullopt`; any other non-`DBX_OK` status throws; on `DBX_OK` the bytes are
copied, the FFI buffer is released via `dbx_free_value` (the Bool records
that the release call was made), and the copy is returned. -/
def cppGet (r : FFIValue) : Except String (Option (List Nat)) × Bool :=
  if r.status = DBX_ERR_NOT_FOUND then (Except.ok none, false)
  else if r.status ≠ DBX_OK then (Except.error "Get failed", false)
  else (Except.ok (some r.bytes), true)

/-- `Database::getSnapshot` (dbx.hpp lines 373-393): same structure as
`Database::get`, with its own error message. -/
def cppGetSnapshot (r : FFIValue) : Except String (Option (List Nat)) × Bool :=
  if r.status = DBX_ERR_NOT_FOUND then (Except.ok none, false)
  else if r.status ≠ DBX_OK then (Except.error "Snapshot read failed", false)
  else (Except.ok (some r.bytes), true)

/-- The C++ `Transaction` wrapper's only state: the `tx_` pointer, `none`
once consumed (dbx.hpp line 460). Handles are abstract ids. -/
structure CppTx where
  ptr : Option Nat
deriving DecidableEq

/-- An FFI call the wrapper issues on the transaction handle. -/
inductive FFICall where
  | commitCall (h : Option Nat)
  | rollbackCall (h : Nat)
deriving DecidableEq

/-- `Transaction::commit` (dbx.hpp lines 442-448): always calls
`dbx_transaction_commit(tx_)` (whose status is the parameter `res`); a
non-`DBX_OK` status throws with `tx_` left intact, otherwise `tx_` is nulled
to prevent rollback in the destructor. -/
def cppCommit (res : Int) (tx : CppTx) :
    Except String Unit × CppTx × List FFICall :=
  if res ≠ DBX_OK then (Except.error "Transaction commit failed", tx, [.commitCall tx.ptr])
  else (Except.ok (), ⟨none⟩, [.commitCall tx.ptr])

/-- `Transaction::rollback` (dbx.hpp lines 450-455): calls
`dbx_transaction_rollback` and nulls `tx_` only when `tx_` is non-null. -/
def cppRollback (tx : CppTx) : CppTx × List FFICall :=
  match tx.ptr with
  | some h => (⟨none⟩, [.rollbackCall h])
  | none => (tx, [])

/-- `Transaction::~Transaction` (dbx.hpp lines 408-412): rolls back exactly
when `tx_` is non-null. -/
def cppDtor (tx : CppTx) : List FFICall :=
  match tx.ptr with
  | some h => [.rollbackCall h]
  | none => []

/-- The `dbx_transaction_rollback` calls among a call list. -/
def rollbackCalls (cs : List FFICall) : List FFICall :=
  cs.filter fun c =>
    match c with
    | .rollbackCall _ => true
    | .commitCall _ => false

/-- `n` successive `allocateCommitTs` calls: the returned timestamps in call
order, and the final database. -/
def allocSeq (db : DB) : Nat → List Nat × DB
  | 0 => ([], db)
  | n + 1 =>
    let p := allocateCommitTs db
    let q := allocSeq p.2 n
    (p.1 :: q.1, q.2)

/-- The write-overwrite scenario of the MVCC contract: allocate `t1`, write
`(k, v1)` at `t1`, allocate `t2`, overwrite with `(k, v2)` at `t2`.
Returns `(t1, t2, final database)`. -/
def twoWrites (db : DB) (tb : String) (k : Key) (v1 v2 : Val) : Nat × Nat × DB :=
  let p1 := allocateCommitTs db
  let dbA := insertVersioned p1.2 tb k v1 p1.1
  let p2 := allocateCommitTs dbA
  (p1.1, p2.1, insertVersioned p2.2 tb k v2 p2.1)

/-! ## Order lemmas for byte-lexicographic comparison -/

theorem lexLt_cons_iff {a b : Nat} {as bs : Key} :
    lexLt (a :: as) (b :: bs) = true ↔ a < b ∨ (a = b ∧ lexLt as bs = true) := by
  simp only [lexLt]
  split_ifs with h1 h2
  · simp [h1]
  · simp [Nat.lt_asymm h2, (Nat.ne_of_lt h2).symm]
  · have : a = b := Nat.le_antisymm (Nat.not_lt.mp h2) (Nat.not_lt.mp h1)
    simp [this]

theorem lexLt_irrefl : ∀ k : Key, lexLt k k = false
  | [] => rfl
  | _ :: as => by
    rw [Bool.eq_false_iff]
    intro h
    rcases lexLt_cons_iff.mp h with h' | ⟨_, h'⟩
    · exact Nat.lt_irrefl _ h'
    · rw [lexLt_irrefl as] at h'
      exact Bool.false_ne_true h'

theorem lexLt_trans : ∀ a b c : Key,
    lexLt a b = true → lexLt b c = true → lexLt a c = true
  | [], [], _, h, _ => by simp [lexLt] at h
  | [], _ :: _, [], _, h2 => by simp [lexLt] at h2
  | [], _ :: _, _ :: _, _, _ => by simp [lexLt]
  | _ :: _, [], _, h, _ => by simp [lexLt] at h
  | _ :: _, _ :: _, [], _, h2 => by simp [lexLt] at h2
  | a :: as, b :: bs, c :: cs, h1, h2 => by
    rcases lexLt_cons_iff.mp h1 with hab | ⟨hab, h1'⟩ <;>
      rcases lexLt_cons_iff.mp h2 with hbc | ⟨hbc, h2'⟩
    · exact lexLt_cons_iff.mpr (Or.inl (Nat.lt_trans hab hbc))
    · exact lexLt_cons_iff.mpr (Or.inl (hbc ▸ hab))
    · exact lexLt_cons_iff.mpr (Or.inl (hab ▸ hbc))
    · exact lexLt_cons_iff.mpr (Or.inr ⟨hab.trans hbc, lexLt_trans as bs cs h1' h2'⟩)

theorem lexLt_asymm {a b : Key} (h : lexLt a b = true) : lexLt b a = false := by
  by_contra hne
  have h2 : lexLt b a = true := by
    cases hv : lexLt b a
    · exact absurd hv hne
    · rfl
  have := lexLt_trans a b a h h2
  rw [lexLt_irrefl a] at this
  exact Bool.false_ne_true this

theorem lexLt_connex : ∀ a b : Key, a ≠ b → lexLt a b = true ∨ lexLt b a = true
  | [], [], h => absurd rfl h
  | [], _ :: _, _ => Or.inl (by simp [lexLt])
  | _ :: _, [], _ => Or.inr (by simp [lexLt])
  | a :: as, b :: bs, h => by
    rcases Nat.lt_trichotomy a b with hl | he | hg
    · exact Or.inl (lexLt_cons_iff.mpr (Or.inl hl))
    · subst he
      have hne : as ≠ bs := fun hh => h (by rw [hh])
      rcases lexLt_connex as bs hne with h' | h'
      · exact Or.inl (lexLt_cons_iff.mpr (Or.inr ⟨rfl, h'⟩))
      · exact Or.inr (lexLt_cons_iff.mpr (Or.inr ⟨rfl, h'⟩))
    · exact Or.inr (lexLt_cons_iff.mpr (Or.inl hg))

theorem KeyLt_trans {a b c : Key} (h1 : KeyLt a b) (h2 : KeyLt b c) : KeyLt a c :=
  lexLt_trans a b c h1 h2

/-! ## Lookup and table-update lemmas -/

theorem mem_of_lookup_eq_some {α β : Type} [BEq α] [LawfulBEq α]
    {a : α} {b : β} : ∀ {l : List (α × β)}, l.lookup a = some b → (a, b) ∈ l
  | [], h => by simp [List.lookup] at h
  | (k, v) :: es, h => by
    by_cases hk : a = k
    · subst hk
      simp [List.lookup] at h
      simp [h]
    · have hbeq : (a == k) = false := beq_eq_false_iff_ne.mpr hk
      simp [List.lookup, hbeq] at h
      exact List.mem_cons_of_mem _ (mem_of_lookup_eq_some h)

theorem lookup_setTable_self (t : String) (r : Rows) :
    ∀ ts, (setTable t r ts).lookup t = some r
  | [] => by simp [setTable, List.lookup]
  | (t', r') :: rest => by
    by_cases h : t = t'
    · simp [setTable, if_pos h, List.lookup]
    · have hbeq : (t == t') = false := beq_eq_false_iff_ne.mpr h
      simp [setTable, if_neg h, List.lookup, hbeq, lookup_setTable_self t r rest]

theorem lookup_setTable_other {t t' : String} (hne : t' ≠ t) (r : Rows) :
    ∀ ts, (setTable t r ts).lookup t' = ts.lookup t'
  | [] => by
    have hbeq : (t' == t) = false := beq_eq_false_iff_ne.mpr hne
    simp [setTable, List.lookup, hbeq]
  | (t'', r'') :: rest => by
    by_cases h : t = t''
    · subst h
      have hbeq : (t' == t) = false := beq_eq_false_iff_ne.mpr hne
      simp [setTable, List.lookup, hbeq]
    · simp [setTable, if_neg h, List.lookup, lookup_setTable_other hne r rest]

theorem tableRows_putVersion_self (db : DB) (t : String) (k : Key) (v : Version) :
    tableRows (putVersion db t k v) t = insertVer k v (tableRows db t) := by
  simp [tableRows, putVersion, lookup_setTable_self]

theorem tableRows_putVersion_other {t t' : String} (hne : t' ≠ t)
    (db : DB) (k : Key) (v : Version) :
    tableRows (putVersion db t k v) t' = tableRows db t' := by
  simp [tableRows, putVersion, lookup_setTable_other hne]

theorem lookup_insertVer_other {k k' : Key} (hne : k' ≠ k) (v : Version) :
    ∀ rows : Rows, (insertVer k v rows).lookup k' = rows.lookup k'
  | [] => by
    have hbeq : (k' == k) = false := beq_eq_false_iff_ne.mpr hne
    simp [insertVer, List.lookup, hbeq]
  | (k0, vs) :: rest => by
    by_cases h : k = k0
    · subst h
      have hbeq : (k' == k) = false := beq_eq_false_iff_ne.mpr hne
      simp [insertVer, List.lookup, hbeq]
    · by_cases hlt : lexLt k k0
      · have hbeq : (k' == k) = false := beq_eq_false_iff_ne.mpr hne
        simp [insertVer, if_neg h, hlt, List.lookup, hbeq]
      · simp [insertVer, if_neg h, hlt, List.lookup,
          lookup_insertVer_other hne v rest]

theorem lookup_eq_none_of_forall_lt {k : Key} :
    ∀ rows : Rows, (∀ p ∈ rows, KeyLt k p.1) → rows.lookup k = none
  | [], _ => by simp [List.lookup]
  | (k0, vs) :: rest, h => by
    have hk0 : KeyLt k k0 := h (k0, vs) (List.mem_cons_self _ _)
    have hne : k ≠ k0 := by
      intro he
      subst he
      rw [KeyLt, lexLt_irrefl] at hk0
      exact Bool.false_ne_true hk0
    have hbeq : (k == k0) = false := beq_eq_false_iff_ne.mpr hne
    have htail := lookup_eq_none_of_forall_lt rest fun p hp => h p (List.mem_cons_of_mem _ hp)
    simp [List.lookup, hbeq, htail]

theorem lookup_insertVer_self (k : Key) (v : Version) :
    ∀ rows : Rows, RowsSorted rows →
      (insertVer k v rows).lookup k = some (getVersions rows k ++ [v])
  | [], _ => by simp [insertVer, List.lookup, getVersions]
  | (k0, vs) :: rest, hs => by
    by_cases h : k = k0
    · subst h
      simp [insertVer, List.lookup, getVersions]
    · by_cases hlt : lexLt k k0
      · have hnone : ((k0, vs) :: rest).lookup k = none := by
          apply lookup_eq_none_of_forall_lt
          intro p hp
          rcases List.mem_cons.mp hp with he | hm
          · rw [he]
            exact hlt
          · have h2 : KeyLt k0 p.1 := by
              have := (List.pairwise_cons.mp hs).1
              exact this p.1 (List.mem_map_of_mem Prod.fst hm)
            exact KeyLt_trans hlt h2
        have hGV : getVersions ((k0, vs) :: rest) k = [] := by
          unfold getVersions
          rw [hnone]
          rfl
        simp [insertVer, if_neg h, hlt, List.lookup, hGV]
      · have hs' : RowsSorted rest := (List.pairwise_cons.mp hs).2
        have hbeq : (k == k0) = false := beq_eq_false_iff_ne.mpr h
        simp [insertVer, if_neg h, hlt, List.lookup, hbeq, getVersions,
          lookup_insertVer_self k v rest hs']

theorem getVersions_putVersion_self (db : DB) (t : String) (k : Key) (v : Version)
    (hs : DBSorted db) :
    getVersions (tableRows (putVersion db t k v) t) k
      = getVersions (tableRows db t) k ++ [v] := by
  have hrs : RowsSorted (tableRows db t) := by
    unfold tableRows
    cases hv : db.tables.lookup t with
    | none => simp [RowsSorted, List.Pairwise.nil]
    | some r =>
      simp only [Option.getD_some]
      exact hs (t, r) (mem_of_lookup_eq_some hv)
  rw [tableRows_putVersion_self]
  unfold getVersions
  rw [lookup_insertVer_self k v _ hrs]
  rfl

theorem RowsSorted_tableRows {db : DB} (hs : DBSorted db) (t : String) :
    RowsSorted (tableRows db t) := by
  unfold tableRows
  cases hv : db.tables.lookup t with
  | none => simp [RowsSorted, List.Pairwise.nil]
  | some r =>
    simp only [Option.getD_some]
    exact hs (t, r) (mem_of_lookup_eq_some hv)

theorem getVersions_putVersion_other {t t' : String} {k k' : Key}
    (hne : t' ≠ t ∨ k' ≠ k) (db : DB) (v : Version) :
    getVersions (tableRows (putVersion db t k v) t') k'
      = getVersions (tableRows db t') k' := by
  by_cases ht : t' = t
  · rcases hne with h | h
    · exact absurd ht h
    · subst ht
      rw [tableRows_putVersion_self]
      unfold getVersions
      rw [lookup_insertVer_other h]
  · rw [tableRows_putVersion_other ht]

/-! ## Invariant preservation -/

theorem insertVer_keys_sub (k : Key) (v : Version) :
    ∀ rows : Rows, ∀ x ∈ (insertVer k v rows).map Prod.fst,
      x = k ∨ x ∈ rows.map Prod.fst
  | [], x, hx => by
    simp [insertVer] at hx
    exact Or.inl hx
  | (k0, vs) :: rest, x, hx => by
    by_cases h : k = k0
    · subst h
      simp [insertVer] at hx
      rcases hx with h1 | h1
      · exact Or.inl h1
      · exact Or.inr (by simp [h1])
    · by_cases hlt : lexLt k k0
      · simp [insertVer, if_neg h, hlt] at hx
        rcases hx with h1 | h1 | h1
        · exact Or.inl h1
        · exact Or.inr (by simp [h1])
        · exact Or.inr (by simp [h1])
      · simp [insertVer, if_neg h, hlt] at hx
        rcases hx with h1 | h1
        · exact Or.inr (by simp [h1])
        · rcases insertVer_keys_sub k v rest x (by simpa using h1) with h2 | h2
          · exact Or.inl h2
          · exact Or.inr (by simp; exact Or.inr (by simpa using h2))

theorem RowsSorted_insertVer (k : Key) (v : Version) :
    ∀ rows : Rows, RowsSorted rows → RowsSorted (insertVer k v rows)
  | [], _ => by simp [insertVer, RowsSorted]
  | (k0, vs) :: rest, hs => by
    have hhead := (List.pairwise_cons.mp hs).1
    have htail := (List.pairwise_cons.mp hs).2
    by_cases h : k = k0
    · subst h
      simpa [insertVer, RowsSorted] using hs
    · by_cases hlt : lexLt k k0
      · have goalEq : insertVer k v ((k0, vs) :: rest) = (k, [v]) :: (k0, vs) :: rest := by
          simp [insertVer, if_neg h, hlt]
        rw [goalEq]
        unfold RowsSorted
        rw [List.map_cons]
        refine List.pairwise_cons.mpr ⟨?_, ?_⟩
        · intro x hx
          rcases (by simpa using hx : x = k0 ∨ x ∈ rest.map Prod.fst) with h1 | h1
          · rw [h1]
            exact hlt
          · exact KeyLt_trans hlt (hhead x h1)
        · exact hs
      · have hgt : KeyLt k0 k := by
          rcases lexLt_connex k k0 h with h1 | h1
          · exact absurd h1 (by simpa using hlt)
          · exact h1
        have goalEq : insertVer k v ((k0, vs) :: rest) = (k0, vs) :: insertVer k v rest := by
          simp [insertVer, if_neg h, hlt]
        rw [goalEq]
        unfold RowsSorted
        rw [List.map_cons]
        refine List.pairwise_cons.mpr ⟨?_, ?_⟩
        · intro x hx
          rcases insertVer_keys_sub k v rest x hx with h1 | h1
          · rw [h1]
            exact hgt
          · exact hhead x h1
        · exact RowsSorted_insertVer k v rest htail

theorem setTable_mem (t : String) (r : Rows) :
    ∀ ts, ∀ p ∈ setTable t r ts, p = (t, r) ∨ p ∈ ts
  | [], p, hp => by
    simp [setTable] at hp
    exact Or.inl (by simp [hp])
  | (t', r') :: rest, p, hp => by
    by_cases h : t = t'
    · simp [setTable, if_pos h] at hp
      rcases hp with h1 | h1
      · exact Or.inl (by simp [h1])
      · exact Or.inr (List.mem_cons_of_mem _ h1)
    · simp [setTable, if_neg h] at hp
      rcases hp with h1 | h1
      · exact Or.inr (by simp [h1])
      · rcases setTable_mem t r rest p h1 with h2 | h2
        · exact Or.inl h2
        · exact Or.inr (List.mem_cons_of_mem _ h2)

theorem DBSorted_putVersion {db : DB} (hs : DBSorted db) (t : String) (k : Key)
    (v : Version) : DBSorted (putVersion db t k v) := by
  intro p hp
  rcases setTable_mem t _ _ p hp with h | h
  · rw [h]
    exact RowsSorted_insertVer k v _ (RowsSorted_tableRows hs t)
  · exact hs p h

theorem insertVer_entry_mem (k : Key) (v : Version) :
    ∀ rows : Rows, ∀ q ∈ insertVer k v rows, ∀ w ∈ q.2,
      w = v ∨ ∃ q' ∈ rows, w ∈ q'.2
  | [], q, hq, w, hw => by
    simp [insertVer] at hq
    rw [hq] at hw
    simp at hw
    exact Or.inl hw
  | (k0, vs) :: rest, q, hq, w, hw => by
    by_cases h : k = k0
    · subst h
      simp [insertVer] at hq
      rcases hq with h1 | h1
      · rw [h1] at hw
        simp at hw
        rcases hw with h2 | h2
        · exact Or.inr ⟨(k, vs), by simp, h2⟩
        · exact Or.inl h2
      · exact Or.inr ⟨q, List.mem_cons_of_mem _ h1, hw⟩
    · by_cases hlt : lexLt k k0
      · simp [insertVer, if_neg h, hlt] at hq
        rcases hq with h1 | h1 | h1
        · rw [h1] at hw
          simp at hw
          exact Or.inl hw
        · exact Or.inr ⟨q, by simp [h1], hw⟩
        · exact Or.inr ⟨q, List.mem_cons_of_mem _ h1, hw⟩
      · simp [insertVer, if_neg h, hlt] at hq
        rcases hq with h1 | h1
        · exact Or.inr ⟨q, by simp [h1], hw⟩
        · rcases insertVer_entry_mem k v rest q h1 w hw with h2 | h2
          · exact Or.inl h2
          · rcases h2 with ⟨q', hq', hw'⟩
            exact Or.inr ⟨q', List.mem_cons_of_mem _ hq', hw'⟩

theorem DBBounded_putVersion {db : DB} (hb : DBBounded db) (t : String) (k : Key)
    {v : Version} (hv : v.commit_ts ≤ db.clock) :
    DBBounded (putVersion db t k v) := by
  intro p hp q hq w hw
  have hclock : (putVersion db t k v).clock = db.clock := rfl
  rw [hclock]
  rcases setTable_mem t _ _ p hp with h | h
  · rw [h] at hq
    rcases insertVer_entry_mem k v _ q hq w hw with h2 | h2
    · rw [h2]
      exact hv
    · rcases h2 with ⟨q', hq', hw'⟩
      unfold tableRows at hq'
      cases hl : db.tables.lookup t with
      | none =>
        rw [hl] at hq'
        simp at hq'
      | some r =>
        rw [hl] at hq'
        simp at hq'
        exact hb (t, r) (mem_of_lookup_eq_some hl) q' hq' w hw'
  · exact hb p h q hq w hw

theorem DBBounded_clock_mono {c c' : Nat} {tbs : List (String × Rows)}
    (hb : DBBounded ⟨c, tbs⟩) (hle : c ≤ c') : DBBounded ⟨c', tbs⟩ := by
  intro p hp q hq w hw
  exact Nat.le_trans (hb p hp q hq w hw) hle

/-! ## Version-selection (`latestLe`) lemmas -/

theorem pick_of_not_le {T : Nat} {acc : Option Version} {v : Version}
    (h : ¬ v.commit_ts ≤ T) : pick T acc v = acc := by
  simp [pick, h]

theorem pick_cases (T : Nat) (acc : Option Version) (v : Version) :
    pick T acc v = some v ∨ pick T acc v = acc := by
  unfold pick
  by_cases h : v.commit_ts ≤ T
  · simp only [if_pos h]
    cases acc with
    | none => exact Or.inl rfl
    | some w =>
      by_cases h2 : w.commit_ts ≤ v.commit_ts
      · simp [h2]
      · simp [h2]
  · simp [h]

theorem foldl_pick_skip {T : Nat} :
    ∀ l : List Version, (∀ v ∈ l, ¬ v.commit_ts ≤ T) → ∀ acc,
      l.foldl (pick T) acc = acc
  | [], _, _ => rfl
  | v :: l, h, acc => by
    rw [List.foldl_cons, pick_of_not_le (h v (List.mem_cons_self _ _))]
    exact foldl_pick_skip l (fun u hu => h u (List.mem_cons_of_mem _ hu)) acc

theorem foldl_pick_mem {T : Nat} :
    ∀ (l : List Version) (acc : Option Version) (w : Version),
      l.foldl (pick T) acc = some w → w ∈ l ∨ acc = some w
  | [], _, _, h => Or.inr h
  | v :: l, acc, w, h => by
    rw [List.foldl_cons] at h
    rcases foldl_pick_mem l (pick T acc v) w h with h1 | h1
    · exact Or.inl (List.mem_cons_of_mem _ h1)
    · rcases pick_cases T acc v with h2 | h2
      · rw [h2] at h1
        exact Or.inl (by simp [Option.some_inj.mp h1])
      · exact Or.inr (h2 ▸ h1)

theorem foldl_pick_ge_acc {T : Nat} :
    ∀ (l : List Version) (u : Version),
      ∃ w, l.foldl (pick T) (some u) = some w ∧ u.commit_ts ≤ w.commit_ts
  | [], u => ⟨u, rfl, Nat.le_refl _⟩
  | v :: l, u => by
    rw [List.foldl_cons]
    by_cases h : v.commit_ts ≤ T
    · by_cases h2 : u.commit_ts ≤ v.commit_ts
      · have hp : pick T (some u) v = some v := by simp [pick, h, h2]
        rw [hp]
        rcases foldl_pick_ge_acc l v with ⟨w, hw, hle⟩
        exact ⟨w, hw, Nat.le_trans h2 hle⟩
      · have hp : pick T (some u) v = some u := by simp [pick, h, h2]
        rw [hp]
        exact foldl_pick_ge_acc l u
    · rw [pick_of_not_le h]
      exact foldl_pick_ge_acc l u

theorem foldl_pick_max {T : Nat} :
    ∀ (l : List Version) (acc : Option Version) (w : Version),
      l.foldl (pick T) acc = some w →
      ∀ v ∈ l, v.commit_ts ≤ T → v.commit_ts ≤ w.commit_ts
  | [], _, _, _, v, hv, _ => absurd hv (List.not_mem_nil v)
  | v0 :: l, acc, w, h, v, hv, hle => by
    rw [List.foldl_cons] at h
    rcases List.mem_cons.mp hv with he | hm
    · subst he
      have hstep : ∃ u, pick T acc v = some u ∧ v.commit_ts ≤ u.commit_ts := by
        unfold pick
        rw [if_pos hle]
        cases acc with
        | none => exact ⟨v, rfl, Nat.le_refl _⟩
        | some u0 =>
          by_cases h2 : u0.commit_ts ≤ v.commit_ts
          · exact ⟨v, by simp [h2], Nat.le_refl _⟩
          · exact ⟨u0, by simp [h2], Nat.le_of_lt (Nat.lt_of_not_le h2)⟩
      rcases hstep with ⟨u, hu, hvu⟩
      rw [hu] at h
      rcases foldl_pick_ge_acc l u with ⟨w', hw', hle'⟩
      rw [h] at hw'
      exact Nat.le_trans hvu (Nat.le_trans hle'
        (Nat.le_of_eq (congrArg Version.commit_ts (Option.some_inj.mp hw'.symm))))
    · exact foldl_pick_max l (pick T acc v0) w h v hm hle

theorem foldl_pick_le {T : Nat} :
    ∀ (l : List Version) (acc : Option Version),
      (∀ u, acc = some u → u.commit_ts ≤ T) →
      ∀ w, l.foldl (pick T) acc = some w → w.commit_ts ≤ T
  | [], _, hacc, w, h => hacc w h
  | v :: l, acc, hacc, w, h => by
    rw [List.foldl_cons] at h
    refine foldl_pick_le l (pick T acc v) ?_ w h
    intro u hu
    by_cases hv : v.commit_ts ≤ T
    · unfold pick at hu
      rw [if_pos hv] at hu
      cases acc with
      | none =>
        simp at hu
        rw [← hu]
        exact hv
      | some u0 =>
        by_cases h2 : u0.commit_ts ≤ v.commit_ts
        · simp [h2] at hu
          rw [← hu]
          exact hv
        · simp [h2] at hu
          rw [← hu]
          exact hacc u0 rfl
    · rw [pick_of_not_le hv] at hu
      exact hacc u hu

theorem foldl_pick_none {T : Nat} :
    ∀ (l : List Version) (acc : Option Version),
      l.foldl (pick T) acc = none → acc = none ∧ ∀ v ∈ l, ¬ v.commit_ts ≤ T
  | [], _, h => ⟨h, by simp⟩
  | v :: l, acc, h => by
    rw [List.foldl_cons] at h
    rcases foldl_pick_none l (pick T acc v) h with ⟨hp, hall⟩
    have hv : ¬ v.commit_ts ≤ T := by
      intro hle
      unfold pick at hp
      rw [if_pos hle] at hp
      cases acc <;> simp at hp
      split at hp <;> simp at hp
    refine ⟨?_, ?_⟩
    · rw [pick_of_not_le hv] at hp
      exact hp
    · intro u hu
      rcases List.mem_cons.mp hu with he | hm
      · subst he
        exact hv
      · exact hall u hm

theorem foldl_pick_last {T ts : Nat} :
    ∀ l : List Version, l ≠ [] → (∀ v ∈ l, v.commit_ts = ts) → ts ≤ T →
      ∀ acc : Option Version, (∀ u, acc = some u → u.commit_ts ≤ ts) →
        l.foldl (pick T) acc = l.getLast?
  | [], hne, _, _, _, _ => absurd rfl hne
  | [v], _, hall, hT, acc, hacc => by
    have hv : v.commit_ts = ts := hall v (List.mem_cons_self _ _)
    have hvT : v.commit_ts ≤ T := hv ▸ hT
    rw [List.foldl_cons, List.foldl_nil]
    unfold pick
    rw [if_pos hvT]
    cases acc with
    | none => rfl
    | some u =>
      have : u.commit_ts ≤ v.commit_ts := hv ▸ hacc u rfl
      simp [this]
  | v :: v2 :: l, _, hall, hT, acc, hacc => by
    have hv : v.commit_ts = ts := hall v (List.mem_cons_self _ _)
    have hvT : v.commit_ts ≤ T := hv ▸ hT
    have hstep : pick T acc v = some v := by
      unfold pick
      rw [if_pos hvT]
      cases acc with
      | none => rfl
      | some u =>
        have : u.commit_ts ≤ v.commit_ts := hv ▸ hacc u rfl
        simp [this]
    rw [List.foldl_cons, hstep, List.getLast?_cons_cons]
    exact foldl_pick_last (v2 :: l) (by simp)
      (fun u hu => hall u (List.mem_cons_of_mem _ hu)) hT (some v)
      (fun u hu => by rw [← Option.some_inj.mp hu, hv])

theorem latestLe_append_big {T : Nat} {l1 l2 : List Version}
    (h : ∀ v ∈ l2, ¬ v.commit_ts ≤ T) :
    latestLe T (l1 ++ l2) = latestLe T l1 := by
  unfold latestLe
  rw [List.foldl_append]
  exact foldl_pick_skip l2 h _

theorem latestLe_append_last {T c ts : Nat} {l1 l2 : List Version}
    (h1 : ∀ v ∈ l1, v.commit_ts ≤ c) (hc : c ≤ ts)
    (h2 : ∀ v ∈ l2, v.commit_ts = ts) (hT : ts ≤ T) (hne : l2 ≠ []) :
    latestLe T (l1 ++ l2) = l2.getLast? := by
  unfold latestLe
  rw [List.foldl_append]
  refine foldl_pick_last l2 hne h2 hT _ ?_
  intro u hu
  rcases foldl_pick_mem l1 none u hu with hm | hm
  · exact Nat.le_trans (h1 u hm) hc
  · exact Option.noConfusion hm

theorem foldl_pick_congr {T c : Nat} (hcT : c ≤ T) :
    ∀ l : List Version, (∀ v ∈ l, v.commit_ts ≤ c) → ∀ acc,
      l.foldl (pick T) acc = l.foldl (pick c) acc
  | [], _, _ => rfl
  | v :: l, h, acc => by
    have hv : v.commit_ts ≤ c := h v (List.mem_cons_self _ _)
    have hstep : pick T acc v = pick c acc v := by
      unfold pick
      rw [if_pos (Nat.le_trans hv hcT), if_pos hv]
    rw [List.foldl_cons, List.foldl_cons, hstep]
    exact foldl_pick_congr hcT l (fun u hu => h u (List.mem_cons_of_mem _ hu)) _

theorem latestLe_high_clock {T c : Nat} {l : List Version}
    (h : ∀ v ∈ l, v.commit_ts ≤ c) (hcT : c ≤ T) :
    latestLe T l = latestLe c l :=
  foldl_pick_congr hcT l h none

/-! ## Buffer application lemmas -/

theorem clock_applyOpAt (ts : Nat) (db : DB) (op : Op) :
    (applyOpAt ts db op).clock = db.clock := by
  cases op <;> rfl

theorem clock_applyBufferAt (ts : Nat) :
    ∀ (B : List Op) (db : DB), (applyBufferAt ts B db).clock = db.clock
  | [], _ => rfl
  | op :: B, db => by
    have hstep : applyBufferAt ts (op :: B) db = applyBufferAt ts B (applyOpAt ts db op) := rfl
    rw [hstep, clock_applyBufferAt ts B, clock_applyOpAt]

theorem DBSorted_applyOpAt {db : DB} (hs : DBSorted db) (ts : Nat) (op : Op) :
    DBSorted (applyOpAt ts db op) := by
  cases op <;> exact DBSorted_putVersion hs _ _ _

theorem DBSorted_applyBufferAt (ts : Nat) :
    ∀ (B : List Op) (db : DB), DBSorted db → DBSorted (applyBufferAt ts B db)
  | [], _, hs => hs
  | op :: B, db, hs =>
    DBSorted_applyBufferAt ts B (applyOpAt ts db op) (DBSorted_applyOpAt hs ts op)

theorem DBBounded_applyOpAt {db : DB} (hb : DBBounded db) {ts : Nat}
    (hts : ts ≤ db.clock) (op : Op) : DBBounded (applyOpAt ts db op) := by
  cases op <;> exact DBBounded_putVersion hb _ _ hts

theorem DBBounded_applyBufferAt {ts : Nat} :
    ∀ (B : List Op) (db : DB), DBBounded db → ts ≤ db.clock →
      DBBounded (applyBufferAt ts B db)
  | [], _, hb, _ => hb
  | op :: B, db, hb, hts =>
    DBBounded_applyBufferAt B (applyOpAt ts db op)
      (DBBounded_applyOpAt hb hts op)
      (by rw [clock_applyOpAt]; exact hts)

theorem getVersions_applyBufferAt (ts : Nat) :
    ∀ (B : List Op) (db : DB), DBSorted db → ∀ (t : String) (k : Key),
      getVersions (tableRows (applyBufferAt ts B db) t) k
        = getVersions (tableRows db t) k ++ (opsOn B t k).map (verOf ts)
  | [], db, _, t, k => by simp [applyBufferAt, opsOn]
  | op :: B, db, hs, t, k => by
    have hstep : applyBufferAt ts (op :: B) db = applyBufferAt ts B (applyOpAt ts db op) := rfl
    rw [hstep, getVersions_applyBufferAt ts B _ (DBSorted_applyOpAt hs ts op) t k]
    by_cases ht : opTouches op t k = true
    · have hops : opsOn (op :: B) t k = op :: opsOn B t k := by
        simp [opsOn, List.filter_cons, ht]
      cases op with
      | ins t0 k0 v0 =>
        simp only [opTouches, Bool.and_eq_true, decide_eq_true_eq] at ht
        rcases ht with ⟨ht0, hk0⟩
        subst ht0
        subst hk0
        have happ : applyOpAt ts db (.ins t0 k0 v0) = putVersion db t0 k0 ⟨v0, ts, false⟩ := rfl
        rw [happ, getVersions_putVersion_self db t0 k0 _ hs, hops]
        simp [verOf]
      | del t0 k0 =>
        simp only [opTouches, Bool.and_eq_true, decide_eq_true_eq] at ht
        rcases ht with ⟨ht0, hk0⟩
        subst ht0
        subst hk0
        have happ : applyOpAt ts db (.del t0 k0) = putVersion db t0 k0 ⟨[], ts, true⟩ := rfl
        rw [happ, getVersions_putVersion_self db t0 k0 _ hs, hops]
        simp [verOf]
    · have hops : opsOn (op :: B) t k = opsOn B t k := by
        simp [opsOn, List.filter_cons, ht]
      have hne : getVersions (tableRows (applyOpAt ts db op) t) k
          = getVersions (tableRows db t) k := by
        cases op with
        | ins t0 k0 v0 =>
          simp only [opTouches, Bool.and_eq_true, decide_eq_true_eq, not_and] at ht
          have hcase : t0 ≠ t ∨ k0 ≠ k := by
            by_cases h1 : t0 = t
            · exact Or.inr (by intro h2; exact (ht h1) h2)
            · exact Or.inl h1
          have happ : applyOpAt ts db (.ins t0 k0 v0) = putVersion db t0 k0 ⟨v0, ts, false⟩ := rfl
          rw [happ]
          exact getVersions_putVersion_other
            (by rcases hcase with h | h
                · exact Or.inl (Ne.symm h)
                · exact Or.inr (Ne.symm h)) db _
        | del t0 k0 =>
          simp only [opTouches, Bool.and_eq_true, decide_eq_true_eq, not_and] at ht
          have hcase : t0 ≠ t ∨ k0 ≠ k := by
            by_cases h1 : t0 = t
            · exact Or.inr (by intro h2; exact (ht h1) h2)
            · exact Or.inl h1
          have happ : applyOpAt ts db (.del t0 k0) = putVersion db t0 k0 ⟨[], ts, true⟩ := rfl
          rw [happ]
          exact getVersions_putVersion_other
            (by rcases hcase with h | h
                · exact Or.inl (Ne.symm h)
                · exact Or.inr (Ne.symm h)) db _
      rw [hne, hops]

/-! ## Bounds on stored versions, CRUD lemmas -/

theorem getVersions_bounded {db : DB} (hb : DBBounded db) (t : String) (k : Key) :
    ∀ v ∈ getVersions (tableRows db t) k, v.commit_ts ≤ db.clock := by
  intro v hv
  unfold getVersions at hv
  cases hl2 : (tableRows db t).lookup k with
  | none =>
    rw [hl2] at hv
    simp at hv
  | some vs =>
    rw [hl2] at hv
    simp at hv
    have hmem : (k, vs) ∈ tableRows db t := mem_of_lookup_eq_some hl2
    unfold tableRows at hmem
    cases hl : db.tables.lookup t with
    | none =>
      rw [hl] at hmem
      simp at hmem
    | some rows =>
      rw [hl] at hmem
      simp at hmem
      exact hb (t, rows) (mem_of_lookup_eq_some hl) (k, vs) hmem v hv

theorem getLast?_map (f : α → β) :
    ∀ l : List α, (l.map f).getLast? = l.getLast?.map f
  | [] => rfl
  | [_] => rfl
  | a :: b :: l => by
    rw [List.map_cons, List.map_cons, List.getLast?_cons_cons, ← List.map_cons,
      getLast?_map f (b :: l), List.getLast?_cons_cons]

theorem verOf_commit_ts (ts : Nat) (op : Op) : (verOf ts op).commit_ts = ts := by
  cases op <;> rfl

theorem DBSorted_db0 : DBSorted db0 := by
  intro p hp
  simp [db0] at hp

theorem DBBounded_db0 : DBBounded db0 := by
  intro p hp
  simp [db0] at hp

theorem tables_allocate (db : DB) : (allocateCommitTs db).2.tables = db.tables := rfl

theorem DBSorted_insert {db : DB} (hs : DBSorted db) (t : String) (k : Key) (v : Val) :
    DBSorted (insert db t k v) :=
  DBSorted_putVersion (fun p hp => hs p hp) t k _

theorem DBSorted_delete {db : DB} (hs : DBSorted db) (t : String) (k : Key) :
    DBSorted (delete db t k) :=
  DBSorted_putVersion (fun p hp => hs p hp) t k _

theorem DBBounded_insert {db : DB} (hb : DBBounded db) (t : String) (k : Key) (v : Val) :
    DBBounded (insert db t k v) := by
  unfold insert insertVersioned allocateCommitTs
  exact DBBounded_putVersion
    (by
      rcases db with ⟨c, tbs⟩
      exact DBBounded_clock_mono hb (Nat.le_succ c)) t k (Nat.le_refl _)

theorem DBBounded_delete {db : DB} (hb : DBBounded db) (t : String) (k : Key) :
    DBBounded (delete db t k) := by
  unfold delete allocateCommitTs
  exact DBBounded_putVersion
    (by
      rcases db with ⟨c, tbs⟩
      exact DBBounded_clock_mono hb (Nat.le_succ c)) t k (Nat.le_refl _)

theorem DBSorted_applyOp {db : DB} (hs : DBSorted db) (op : Op) :
    DBSorted (applyOp db op) := by
  cases op with
  | ins t k v => exact DBSorted_insert hs t k v
  | del t k => exact DBSorted_delete hs t k

theorem DBBounded_applyOp {db : DB} (hb : DBBounded db) (op : Op) :
    DBBounded (applyOp db op) := by
  cases op with
  | ins t k v => exact DBBounded_insert hb t k v
  | del t k => exact DBBounded_delete hb t k

theorem get_insert_self {db : DB} (hs : DBSorted db) (hb : DBBounded db)
    (t : String) (k : Key) (v : Val) :
    get (insert db t k v) t k = some v := by
  unfold get getSnapshot currentTimestamp
  have hv : getVersions (tableRows (insert db t k v) t) k
      = getVersions (tableRows db t) k ++ [⟨v, db.clock + 1, false⟩] := by
    have he : insert db t k v
        = putVersion ⟨db.clock + 1, db.tables⟩ t k ⟨v, db.clock + 1, false⟩ := rfl
    rw [he, getVersions_putVersion_self ⟨db.clock + 1, db.tables⟩ t k _ (fun p hp => hs p hp)]
    rfl
  rw [hv]
  have hlast : latestLe (insert db t k v).clock
      (getVersions (tableRows db t) k ++ [⟨v, db.clock + 1, false⟩])
      = some ⟨v, db.clock + 1, false⟩ := by
    have hclock : (insert db t k v).clock = db.clock + 1 := rfl
    rw [hclock]
    rw [@latestLe_append_last _ db.clock (db.clock + 1) _ _
      (getVersions_bounded hb t k) (Nat.le_succ _)
      (by intro u hu; simp at hu; rw [hu]) (Nat.le_refl _) (by simp)]
    rfl
  rw [hlast]
  rfl

theorem get_delete_self {db : DB} (hs : DBSorted db) (hb : DBBounded db)
    (t : String) (k : Key) :
    get (delete db t k) t k = none := by
  unfold get getSnapshot currentTimestamp
  have hv : getVersions (tableRows (delete db t k) t) k
      = getVersions (tableRows db t) k ++ [⟨[], db.clock + 1, true⟩] := by
    have he : delete db t k
        = putVersion ⟨db.clock + 1, db.tables⟩ t k ⟨[], db.clock + 1, true⟩ := rfl
    rw [he, getVersions_putVersion_self ⟨db.clock + 1, db.tables⟩ t k _ (fun p hp => hs p hp)]
    rfl
  rw [hv]
  have hlast : latestLe (delete db t k).clock
      (getVersions (tableRows db t) k ++ [⟨[], db.clock + 1, true⟩])
      = some ⟨[], db.clock + 1, true⟩ := by
    have hclock : (delete db t k).clock = db.clock + 1 := rfl
    rw [hclock]
    rw [@latestLe_append_last _ db.clock (db.clock + 1) _ _
      (getVersions_bounded hb t k) (Nat.le_succ _)
      (by intro u hu; simp at hu; rw [hu]) (Nat.le_refl _) (by simp)]
    rfl
  rw [hlast]
  rfl

theorem get_frame {db : DB} (hb : DBBounded db) {op : Op} {t : String} {k : Key}
    (hto : opTouches op t k = false) :
    get (applyOp db op) t k = get db t k := by
  have hv : getVersions (tableRows (applyOp db op) t) k
      = getVersions (tableRows db t) k := by
    cases op with
    | ins t0 k0 v0 =>
      simp only [opTouches, Bool.and_eq_false_iff, decide_eq_false_iff_not] at hto
      have hcase : t ≠ t0 ∨ k ≠ k0 := by
        rcases hto with h | h
        · exact Or.inl (Ne.symm h)
        · exact Or.inr (Ne.symm h)
      unfold applyOp insert insertVersioned allocateCommitTs
      exact getVersions_putVersion_other hcase _ _
    | del t0 k0 =>
      simp only [opTouches, Bool.and_eq_false_iff, decide_eq_false_iff_not] at hto
      have hcase : t ≠ t0 ∨ k ≠ k0 := by
        rcases hto with h | h
        · exact Or.inl (Ne.symm h)
        · exact Or.inr (Ne.symm h)
      unfold applyOp delete allocateCommitTs
      exact getVersions_putVersion_other hcase _ _
  have hclock : (applyOp db op).clock = db.clock + 1 := by
    cases op <;> rfl
  unfold get getSnapshot currentTimestamp
  rw [hv, hclock,
    latestLe_high_clock (getVersions_bounded hb t k) (Nat.le_succ _)]

/-! ## Scan and range lemmas -/

theorem currentEntry_fst {c : Nat} {p : Key × List Version} {e : Key × Val}
    (h : currentEntry c p = some e) : e.1 = p.1 := by
  unfold currentEntry at h
  cases hl : latestLe c p.2 with
  | none =>
    rw [hl] at h
    exact Option.noConfusion h
  | some v =>
    rw [hl] at h
    by_cases ht : v.tombstone
    · simp [ht] at h
    · simp [ht] at h
      rw [← h]

theorem filterMap_guard_eq_filter (c : Nat) (P : Key → Bool) :
    ∀ rows : Rows,
      (rows.filterMap fun p => if P p.1 then currentEntry c p else none)
        = (rows.filterMap (currentEntry c)).filter (fun e => P e.1)
  | [] => rfl
  | p :: rows => by
    rw [List.filterMap_cons, List.filterMap_cons]
    cases he : currentEntry c p with
    | none =>
      by_cases hp : P p.1
      · simp only [if_pos hp, he]
        exact filterMap_guard_eq_filter c P rows
      · simp only [if_neg hp]
        exact filterMap_guard_eq_filter c P rows
    | some e =>
      have hfst : e.1 = p.1 := currentEntry_fst he
      by_cases hp : P p.1
      · simp only [if_pos hp, he, List.filter_cons, hfst, hp]
        rw [filterMap_guard_eq_filter c P rows]
        simp [hp, hfst]
      · simp only [if_neg hp, List.filter_cons, hfst]
        rw [filterMap_guard_eq_filter c P rows]

theorem range_eq_filter_scan (db : DB) (t : String) (a b : Key) :
    range db t a b = (scan db t).filter (fun e => lexLe a e.1 && lexLt e.1 b) :=
  filterMap_guard_eq_filter db.clock (fun x => lexLe a x && lexLt x b) _

theorem scan_keys_sublist (c : Nat) :
    ∀ rows : Rows,
      ((rows.filterMap (currentEntry c)).map Prod.fst).Sublist (rows.map Prod.fst)
  | [] => List.Sublist.slnil
  | p :: rows => by
    rw [List.filterMap_cons, List.map_cons]
    cases he : currentEntry c p with
    | none => exact List.Sublist.cons _ (scan_keys_sublist c rows)
    | some e =>
      rw [List.map_cons, currentEntry_fst he]
      exact List.Sublist.cons₂ _ (scan_keys_sublist c rows)

theorem scan_keys_pairwise {db : DB} (hs : DBSorted db) (t : String) :
    ((scan db t).map Prod.fst).Pairwise KeyLt :=
  (RowsSorted_tableRows hs t).sublist (scan_keys_sublist db.clock _)

theorem lookup_of_mem_sorted {k : Key} {vs : List Version} :
    ∀ rows : Rows, RowsSorted rows → (k, vs) ∈ rows → rows.lookup k = some vs
  | [], _, hm => absurd hm (List.not_mem_nil _)
  | (k0, vs0) :: rows, hsort, hm => by
    rcases List.mem_cons.mp hm with he | hm'
    · rw [Prod.mk.injEq] at he
      rcases he with ⟨he1, he2⟩
      subst he1
      subst he2
      simp [List.lookup]
    · have hk0 : KeyLt k0 k := by
        have := (List.pairwise_cons.mp hsort).1
        exact this k (List.mem_map_of_mem Prod.fst hm')
      have hne : k ≠ k0 := by
        intro he
        subst he
        rw [KeyLt, lexLt_irrefl] at hk0
        exact Bool.false_ne_true hk0
      have hbeq : (k == k0) = false := beq_eq_false_iff_ne.mpr hne
      simp only [List.lookup, hbeq]
      exact lookup_of_mem_sorted rows (List.pairwise_cons.mp hsort).2 hm'

theorem mem_scan_iff {db : DB} (hs : DBSorted db) (t : String) (k : Key) (v : Val) :
    (k, v) ∈ scan db t ↔ get db t k = some v := by
  unfold scan
  rw [List.mem_filterMap]
  constructor
  · rintro ⟨p, hp, hcur⟩
    have hfst : k = p.1 := currentEntry_fst hcur
    unfold currentEntry at hcur
    cases hl : latestLe db.clock p.2 with
    | none =>
      rw [hl] at hcur
      exact Option.noConfusion hcur
    | some ver =>
      rw [hl] at hcur
      by_cases ht : ver.tombstone
      · simp [ht] at hcur
      · simp [ht] at hcur
        have hlook : (tableRows db t).lookup k = some p.2 := by
          rw [hfst]
          exact lookup_of_mem_sorted _ (RowsSorted_tableRows hs t)
            (by rw [← @Prod.mk.eta _ _ p] at hp; exact hp)
        unfold get getSnapshot currentTimestamp getVersions
        rw [hlook]
        simp only [Option.getD_some, hl]
        simp [ht, hcur.2]
  · intro hget
    unfold get getSnapshot currentTimestamp at hget
    cases hl : latestLe db.clock (getVersions (tableRows db t) k) with
    | none =>
      rw [hl] at hget
      exact Option.noConfusion hget
    | some ver =>
      rw [hl] at hget
      by_cases ht : ver.tombstone
      · simp [ht] at hget
      · simp [ht] at hget
        cases hlook : (tableRows db t).lookup k with
        | none =>
          unfold getVersions at hl
          rw [hlook] at hl
          simp [latestLe] at hl
        | some vs =>
          refine ⟨(k, vs), mem_of_lookup_eq_some hlook, ?_⟩
          unfold currentEntry
          have hvs : getVersions (tableRows db t) k = vs := by
            unfold getVersions
            rw [hlook]
            rfl
          rw [hvs] at hl
          simp only [hl]
          simp [ht, hget]

theorem mem_range_iff {db : DB} (hs : DBSorted db) (t : String) (a b k : Key) (v : Val) :
    (k, v) ∈ range db t a b ↔
      get db t k = some v ∧ lexLe a k = true ∧ lexLt k b = true := by
  rw [range_eq_filter_scan, List.mem_filter, mem_scan_iff hs]
  simp [Bool.and_eq_true]

theorem missing_table_reads (db : DB) (t : String) (a b k : Key)
    (h : db.tables.lookup t = none) :
    scan db t = [] ∧ range db t a b = [] ∧ count db t = 0 ∧ get db t k = none := by
  have hrows : tableRows db t = [] := by
    unfold tableRows
    rw [h]
    rfl
  refine ⟨?_, ?_, ?_, ?_⟩
  · unfold scan
    rw [hrows]
    rfl
  · unfold range
    rw [hrows]
    rfl
  · unfold count scan
    rw [hrows]
    rfl
  · unfold get getSnapshot currentTimestamp getVersions
    rw [hrows]
    rfl

/-! ## Serialization round-trip lemmas -/

theorem decNat_enc (n : Nat) (r : List Nat) : decNat (encNat n ++ r) = some (n, r) := rfl

theorem decListAux_enc {α : Type} {enc : α → List Nat}
    {dec : List Nat → Option (α × List Nat)}
    (hdec : ∀ x r, dec (enc x ++ r) = some (x, r)) :
    ∀ (xs : List α) (r : List Nat),
      decListAux dec xs.length (xs.foldr (fun x acc => enc x ++ acc) [] ++ r)
        = some (xs, r)
  | [], _ => rfl
  | x :: xs, r => by
    have he : (x :: xs).foldr (fun y acc => enc y ++ acc) [] ++ r
        = enc x ++ (xs.foldr (fun y acc => enc y ++ acc) [] ++ r) := by
      rw [List.foldr_cons, List.append_assoc]
    rw [List.length_cons, he]
    unfold decListAux
    simp [hdec x, decListAux_enc hdec xs r]

theorem decList_enc {α : Type} {enc : α → List Nat}
    {dec : List Nat → Option (α × List Nat)}
    (hdec : ∀ x r, dec (enc x ++ r) = some (x, r))
    (xs : List α) (r : List Nat) :
    decList dec (encList enc xs ++ r) = some (xs, r) := by
  unfold decList encList
  have he : (xs.length :: xs.foldr (fun x acc => enc x ++ acc) []) ++ r
      = xs.length :: (xs.foldr (fun x acc => enc x ++ acc) [] ++ r) := rfl
  rw [he]
  unfold decNat
  exact decListAux_enc hdec xs r

theorem decBool_enc (b : Bool) (r : List Nat) : decBool (encBool b ++ r) = some (b, r) := by
  cases b <;> rfl

theorem decBytes_enc (bs : List Nat) (r : List Nat) :
    decBytes (encBytes bs ++ r) = some (bs, r) :=
  decList_enc decNat_enc bs r

theorem decStr_enc (s : String) (r : List Nat) : decStr (encStr s ++ r) = some (s, r) := by
  unfold decStr encStr
  have hmap : (s.data.map Char.toNat).map Char.ofNat = s.data := by
    rw [List.map_map]
    have : (Char.ofNat ∘ Char.toNat) = id := by
      funext c
      exact Char.ofNat_toNat c
    rw [this, List.map_id]
  simp [decList_enc decNat_enc (s.data.map Char.toNat) r, hmap]

theorem decVer_enc (v : Version) (r : List Nat) : decVer (encVer v ++ r) = some (v, r) := by
  unfold decVer encVer
  rw [List.append_assoc, List.append_assoc]
  simp [decBytes_enc, decNat, decBool_enc, encNat]

theorem decRow_enc (p : Key × List Version) (r : List Nat) :
    decRow (encRow p ++ r) = some (p, r) := by
  unfold decRow encRow
  rw [List.append_assoc]
  simp [decBytes_enc, decList_enc decVer_enc]

theorem decTable_enc (p : String × Rows) (r : List Nat) :
    decTable (encTable p ++ r) = some (p, r) := by
  unfold decTable encTable
  rw [List.append_assoc]
  simp [decStr_enc, decList_enc decRow_enc]

theorem decDB_enc (db : DB) : decDB (encDB db) = some (db, []) := by
  unfold decDB encDB
  have h3 : decList decTable (encList encTable db.tables) = some (db.tables, []) := by
    have h2 : encList encTable db.tables = encList encTable db.tables ++ [] :=
      (List.append_nil _).symm
    rw [h2]
    exact decList_enc decTable_enc db.tables []
  simp [decNat, encNat, h3]

theorem load_save_roundtrip (db : DB) : loadFromFile (saveToFile db) = some db := by
  unfold loadFromFile saveToFile
  rw [decDB_enc]
  rfl

/-! ## Timestamp allocator lemmas -/

theorem allocSeq_values (db : DB) :
    ∀ n, (allocSeq db n).1 = (List.range n).map (fun i => db.clock + i + 1)
      ∧ (allocSeq db n).2.clock = db.clock + n
  | 0 => by simp [allocSeq]
  | n + 1 => by
    have ih := allocSeq_values (allocateCommitTs db).2 n
    constructor
    · have h1 : (allocSeq db (n + 1)).1
          = (db.clock + 1) :: (allocSeq (allocateCommitTs db).2 n).1 := rfl
      have hc : (allocateCommitTs db).2.clock = db.clock + 1 := rfl
      rw [h1, ih.1, hc, List.range_succ_eq_map, List.map_cons, List.map_map]
      have hfun : ((fun i => db.clock + i + 1) ∘ Nat.succ)
          = (fun i => db.clock + 1 + i + 1) := by
        funext i
        simp [Function.comp]
        omega
      rw [hfun]
    · have h2 : (allocSeq db (n + 1)).2 = (allocSeq (allocateCommitTs db).2 n).2 := rfl
      rw [h2, ih.2]
      have hc : (allocateCommitTs db).2.clock = db.clock + 1 := rfl
      rw [hc]
      omega

/-! ## Claim theorems -/

/-- C3: calling `rollback` on (or discarding) a transaction before commit
leaves the database state identical to the state before `begin`: the
transaction ends RolledBack with its buffer discarded, every buffered
operation has no effect on stored state, reads are unchanged, and any later
commit attempt is an invalid-operation error that changes nothing. -/
theorem rollback_restores_state (db : DB) (ops : List Op) :
    (txRollback (bufferAll (beginTransaction db) ops) db).2 = db ∧
    (txRollback (bufferAll (beginTransaction db) ops) db).1.state = TxState.RolledBack ∧
    (txRollback (bufferAll (beginTransaction db) ops) db).1.buffer = [] ∧
    (∀ fail, txCommit fail (txRollback (bufferAll (beginTransaction db) ops) db).1 db
        = (DBX_ERR_INVALID_OP, (txRollback (bufferAll (beginTransaction db) ops) db).1, db)) ∧
    (∀ t k, get (txRollback (bufferAll (beginTransaction db) ops) db).2 t k = get db t k) :=
  ⟨rfl, rfl, rfl, fun fail => by simp [txRollback, txCommit], fun _ _ => rfl⟩

/-- C4: for any sequence of operations applied to a database,
`save_to_file` followed by `load_from_file` yields a database whose answers
to `get`, `scan`, `range`, `count` and `get_snapshot` for every key and
timestamp are identical to the pre-save database's answers. -/
theorem save_load_observational (ops : List Op) :
    ∃ db', loadFromFile (saveToFile (applyOps db0 ops)) = some db' ∧
      (∀ t k, get db' t k = get (applyOps db0 ops) t k) ∧
      (∀ t, scan db' t = scan (applyOps db0 ops) t) ∧
      (∀ t a b, range db' t a b = range (applyOps db0 ops) t a b) ∧
      (∀ t, count db' t = count (applyOps db0 ops) t) ∧
      (∀ t k T, getSnapshot db' t k T = getSnapshot (applyOps db0 ops) t k T) :=
  ⟨applyOps db0 ops, load_save_roundtrip _, fun _ _ => rfl, fun _ => rfl,
   fun _ _ _ => rfl, fun _ => rfl, fun _ _ _ => rfl⟩

/-- C7: the global timestamp counter is monotonically increasing:
`current_timestamp` reads it without advancing it, `allocate_commit_ts`
advances it and returns a fresh value, and across any run of allocations the
returned timestamps are pairwise distinct, strictly increasing, and strictly
greater than every earlier counter value. -/
theorem timestamp_counter_spec (db : DB) (n : Nat) :
    currentTimestamp db = db.clock ∧
    (allocateCommitTs db).1 = db.clock + 1 ∧
    (allocateCommitTs db).2.clock = db.clock + 1 ∧
    (allocateCommitTs db).2.tables = db.tables ∧
    (allocSeq db n).1 = (List.range n).map (fun i => db.clock + i + 1) ∧
    (allocSeq db n).2.clock = db.clock + n ∧
    List.Pairwise (· < ·) (allocSeq db n).1 ∧
    (∀ x ∈ (allocSeq db n).1, db.clock < x) ∧
    (allocSeq db n).1.Nodup := by
  have hp : List.Pairwise (· < ·) (allocSeq db n).1 := by
    rw [(allocSeq_values db n).1, List.pairwise_map]
    exact (List.pairwise_lt_range n).imp (fun h => by omega)
  refine ⟨rfl, rfl, rfl, rfl, (allocSeq_values db n).1, (allocSeq_values db n).2,
    hp, ?_, ?_⟩
  · intro x hx
    rw [(allocSeq_values db n).1] at hx
    rcases List.mem_map.mp hx with ⟨i, _, hi⟩
    omega
  · exact hp.imp fun h => by omega

/-- Witness for C7: across two allocations from a fresh database, the first
returned timestamp is strictly above the initial counter. -/
theorem timestamp_counter_spec_witness :
    (1 ∈ (allocSeq db0 2).1) ∧ db0.clock < 1 :=
  ⟨by decide, (timestamp_counter_spec db0 2).2.2.2.2.2.2.2.1 1 (by decide)⟩

/-- C8: every modelled boundary call reports a status from the fixed
six-element code set of `src/lang/c/include/dbx.h` (the engine-side header
`src/core/dbx-ffi/dbx.h` declares a value-compatible subset), and
`insert`/`delete`/`commit` on a non-Open transaction report the distinct
invalid-operation code. -/
theorem status_code_spec :
    errorCodes.length = 6 ∧ errorCodes.Nodup ∧
    (∀ c ∈ coreErrorCodes, c ∈ errorCodes) ∧
    (∀ db t k, getStatus db t k ∈ errorCodes) ∧
    (∀ db t k T, getSnapshotStatus db t k T ∈ errorCodes) ∧
    (∀ tx t k v, (txInsert tx t k v).1 ∈ errorCodes) ∧
    (∀ tx t k, (txDelete tx t k).1 ∈ errorCodes) ∧
    (∀ fail tx db, (txCommit fail tx db).1 ∈ errorCodes) ∧
    (∀ tx t k v, tx.state ≠ TxState.Open →
      (txInsert tx t k v).1 = DBX_ERR_INVALID_OP) ∧
    (∀ tx t k, tx.state ≠ TxState.Open →
      (txDelete tx t k).1 = DBX_ERR_INVALID_OP) ∧
    (∀ fail tx db, tx.state ≠ TxState.Open →
      (txCommit fail tx db).1 = DBX_ERR_INVALID_OP) := by
  refine ⟨rfl, by decide, by decide, ?_, ?_, ?_, ?_, ?_, ?_, ?_, ?_⟩
  · intro db t k
    cases hg : get db t k <;> simp [getStatus, hg, errorCodes]
  · intro db t k T
    cases hg : getSnapshot db t k T <;> simp [getSnapshotStatus, hg, errorCodes]
  · intro tx t k v
    unfold txInsert
    split_ifs <;> simp [errorCodes]
  · intro tx t k
    unfold txDelete
    split_ifs <;> simp [errorCodes]
  · intro fail tx db
    unfold txCommit
    split_ifs <;> simp [errorCodes]
  · intro tx t k v h
    simp [txInsert, h]
  · intro tx t k h
    simp [txDelete, h]
  · intro fail tx db h
    simp [txCommit, h]

/-- Witness for C8: the invalid-operation branches fire on a concrete
committed transaction. -/
theorem status_code_spec_witness :
    (⟨TxState.Committed, []⟩ : Tx).state ≠ TxState.Open ∧
    (txInsert ⟨TxState.Committed, []⟩ "t" [0] [1]).1 = DBX_ERR_INVALID_OP ∧
    (txCommit false ⟨TxState.Committed, []⟩ db0).1 = DBX_ERR_INVALID_OP :=
  ⟨by decide,
   status_code_spec.2.2.2.2.2.2.2.2.1 ⟨TxState.Committed, []⟩ "t" [0] [1] (by decide),
   status_code_spec.2.2.2.2.2.2.2.2.2.2 false ⟨TxState.Committed, []⟩ db0 (by decide)⟩

/-- C9: in the C++ wrapper, a successful `Transaction::commit` nulls the
handle so neither the destructor nor a later `rollback` issues any further
FFI call; `Transaction::rollback` is idempotent, and across
rollback-rollback-destruction the underlying `dbx_transaction_rollback` is
issued exactly once. -/
theorem cpp_commit_rollback_once (h : Nat) (res : Int) (hres : res = DBX_OK) :
    (cppCommit res ⟨some h⟩).1 = Except.ok () ∧
    (cppCommit res ⟨some h⟩).2.1 = ⟨none⟩ ∧
    cppDtor (cppCommit res ⟨some h⟩).2.1 = [] ∧
    (cppRollback (cppCommit res ⟨some h⟩).2.1).2 = [] ∧
    (cppRollback ⟨some h⟩).2 = [FFICall.rollbackCall h] ∧
    (cppRollback (cppRollback ⟨some h⟩).1).2 = [] ∧
    cppDtor (cppRollback ⟨some h⟩).1 = [] ∧
    rollbackCalls ((cppRollback ⟨some h⟩).2
        ++ (cppRollback (cppRollback ⟨some h⟩).1).2
        ++ cppDtor (cppRollback (cppRollback ⟨some h⟩).1).1)
      = [FFICall.rollbackCall h] := by
  subst hres
  refine ⟨?_, ?_, ?_, ?_, ?_, ?_, ?_, ?_⟩ <;>
    simp [cppCommit, cppRollback, cppDtor, rollbackCalls, DBX_OK]

/-- Witness for C9 at a concrete handle and the success status. -/
theorem cpp_commit_rollback_once_witness :
    (0 : Int) = DBX_OK ∧ (cppCommit 0 ⟨some 5⟩).2.1 = ⟨none⟩ :=
  ⟨rfl, (cpp_commit_rollback_once 5 0 rfl).2.1⟩

/-- C10: `Database::get` and `Database::getSnapshot` return `nullopt` exactly
on `DBX_ERR_NOT_FOUND`, return the copied bytes with the FFI buffer released
exactly on `DBX_OK`, and throw `DatabaseError` exactly on every other status
code. -/
theorem cpp_get_error_mapping (r : FFIValue) :
    (cppGet r = (Except.ok none, false) ↔ r.status = DBX_ERR_NOT_FOUND) ∧
    (cppGet r = (Except.ok (some r.bytes), true) ↔ r.status = DBX_OK) ∧
    ((∃ m, (cppGet r).1 = Except.error m) ↔
      (r.status ≠ DBX_OK ∧ r.status ≠ DBX_ERR_NOT_FOUND)) ∧
    (cppGetSnapshot r = (Except.ok none, false) ↔ r.status = DBX_ERR_NOT_FOUND) ∧
    (cppGetSnapshot r = (Except.ok (some r.bytes), true) ↔ r.status = DBX_OK) ∧
    ((∃ m, (cppGetSnapshot r).1 = Except.error m) ↔
      (r.status ≠ DBX_OK ∧ r.status ≠ DBX_ERR_NOT_FOUND)) := by
  unfold cppGet cppGetSnapshot
  by_cases h1 : r.status = DBX_ERR_NOT_FOUND
  · simp [h1, DBX_ERR_NOT_FOUND, DBX_OK]
  · by_cases h2 : r.status = DBX_OK
    · simp [h1, h2, DBX_ERR_NOT_FOUND, DBX_OK]
    · simp [h1, h2]

theorem get_applyOps_frame {t : String} {k : Key} :
    ∀ (ops : List Op) (db : DB), DBSorted db → DBBounded db →
      (∀ op ∈ ops, opTouches op t k = false) →
      get (applyOps db ops) t k = get db t k
  | [], _, _, _, _ => rfl
  | op :: ops, db, hs, hb, hf => by
    have hstep : applyOps db (op :: ops) = applyOps (applyOp db op) ops := rfl
    rw [hstep,
      get_applyOps_frame ops (applyOp db op) (DBSorted_applyOp hs op)
        (DBBounded_applyOp hb op) (fun o ho => hf o (List.mem_cons_of_mem _ ho)),
      get_frame hb (hf op (List.mem_cons_self _ _))]

/-- C5: after `insert (k, v)`, a `get k` with no intervening operation on
`(t, k)` returns exactly the inserted value; a key never inserted reads as
not-found, and a key whose most recent operation is a delete reads as
not-found (not an error). -/
theorem insert_then_get (db : DB) (t : String) (k : Key) (v : Val) (ops : List Op)
    (hs : DBSorted db) (hb : DBBounded db)
    (hframe : ∀ op ∈ ops, opTouches op t k = false) :
    get (applyOps (insert db t k v) ops) t k = some v ∧
    (∀ t' k', get db0 t' k' = none) ∧
    get (delete db t k) t k = none := by
  refine ⟨?_, fun _ _ => rfl, get_delete_self hs hb t k⟩
  rw [get_applyOps_frame ops (insert db t k v) (DBSorted_insert hs t k v)
    (DBBounded_insert hb t k v) hframe]
  exact get_insert_self hs hb t k v

/-- Witness for C5 at a concrete database, with one intervening operation on
a different key. -/
theorem insert_then_get_witness :
    DBSorted db0 ∧ DBBounded db0 ∧
    (∀ op ∈ [Op.del "u" [9]], opTouches op "t" [1] = false) ∧
    get (applyOps (insert db0 "t" [1] [7]) [Op.del "u" [9]]) "t" [1] = some [7] :=
  ⟨by decide, by decide, by decide,
   (insert_then_get db0 "t" [1] [7] [Op.del "u" [9]] (by decide) (by decide)
     (by decide)).1⟩

/-- C6: `range` returns exactly the current non-tombstone entries with
`start ≤ key < end` (half-open, byte-lexicographic) in ascending key order,
`scan` returns all current non-tombstone entries in the same order, and a
missing table reads as empty rather than as an error. -/
theorem scan_range_semantics (db : DB) (t : String) (a b k : Key) (v : Val)
    (hs : DBSorted db) :
    range db t a b = (scan db t).filter (fun e => lexLe a e.1 && lexLt e.1 b) ∧
    ((scan db t).map Prod.fst).Pairwise KeyLt ∧
    ((k, v) ∈ scan db t ↔ get db t k = some v) ∧
    ((k, v) ∈ range db t a b ↔
      get db t k = some v ∧ lexLe a k = true ∧ lexLt k b = true) ∧
    (db.tables.lookup t = none →
      scan db t = [] ∧ range db t a b = [] ∧ count db t = 0 ∧ get db t k = none) :=
  ⟨range_eq_filter_scan db t a b, scan_keys_pairwise hs t, mem_scan_iff hs t k v,
   mem_range_iff hs t a b k v, missing_table_reads db t a b k⟩

theorem latestLe_spec_some {T : Nat} {l : List Version} {w : Version}
    (h : latestLe T l = some w) :
    w ∈ l ∧ w.commit_ts ≤ T ∧
      ∀ v ∈ l, v.commit_ts ≤ T → v.commit_ts ≤ w.commit_ts :=
  ⟨(foldl_pick_mem l none w h).resolve_right (fun hh => Option.noConfusion hh),
   foldl_pick_le l none (fun _ hh => Option.noConfusion hh) w h,
   foldl_pick_max l none w h⟩

theorem latestLe_spec_none {T : Nat} {l : List Version}
    (h : latestLe T l = none) : ∀ v ∈ l, ¬ v.commit_ts ≤ T :=
  (foldl_pick_none l none h).2

/-- C2: a snapshot read at timestamp `T` returns the value of the highest
version with `commit_timestamp ≤ T`, and not-found exactly when that version
is a tombstone or no version qualifies; in particular after writing `v1` at
allocated `t1` and overwriting with `v2` at later allocated `t2`, reading at
`t1` yields `v1` and reading at `t2` yields `v2`. -/
theorem snapshot_read_semantics :
    (∀ (db : DB) (t : String) (k : Key) (T : Nat) (val : Val),
      getSnapshot db t k T = some val →
      ∃ ver, ver ∈ getVersions (tableRows db t) k ∧ ver.tombstone = false ∧
        ver.commit_ts ≤ T ∧ ver.value = val ∧
        ∀ w ∈ getVersions (tableRows db t) k,
          w.commit_ts ≤ T → w.commit_ts ≤ ver.commit_ts) ∧
    (∀ (db : DB) (t : String) (k : Key) (T : Nat),
      getSnapshot db t k T = none →
      (∀ w ∈ getVersions (tableRows db t) k, ¬ w.commit_ts ≤ T) ∨
      ∃ ver, ver ∈ getVersions (tableRows db t) k ∧ ver.tombstone = true ∧
        ver.commit_ts ≤ T ∧
        ∀ w ∈ getVersions (tableRows db t) k,
          w.commit_ts ≤ T → w.commit_ts ≤ ver.commit_ts) ∧
    (∀ (db : DB) (tb : String) (k : Key) (v1 v2 : Val),
      DBSorted db → DBBounded db →
      (twoWrites db tb k v1 v2).1 < (twoWrites db tb k v1 v2).2.1 ∧
      getSnapshot (twoWrites db tb k v1 v2).2.2 tb k (twoWrites db tb k v1 v2).1
        = some v1 ∧
      getSnapshot (twoWrites db tb k v1 v2).2.2 tb k (twoWrites db tb k v1 v2).2.1
        = some v2) := by
  refine ⟨?_, ?_, ?_⟩
  · intro db t k T val h
    unfold getSnapshot at h
    cases hl : latestLe T (getVersions (tableRows db t) k) with
    | none =>
      rw [hl] at h
      exact Option.noConfusion h
    | some ver =>
      rw [hl] at h
      by_cases ht : ver.tombstone
      · simp [ht] at h
      · simp [ht] at h
        rcases latestLe_spec_some hl with ⟨hm, hle, hmax⟩
        exact ⟨ver, hm, Bool.eq_false_iff.mpr ht, hle, h, hmax⟩
  · intro db t k T h
    unfold getSnapshot at h
    cases hl : latestLe T (getVersions (tableRows db t) k) with
    | none => exact Or.inl (latestLe_spec_none hl)
    | some ver =>
      rw [hl] at h
      by_cases ht : ver.tombstone
      · rcases latestLe_spec_some hl with ⟨hm, hle, hmax⟩
        exact Or.inr ⟨ver, hm, ht, hle, hmax⟩
      · simp [ht] at h
  · intro db tb k v1 v2 hs hb
    have h1 : (twoWrites db tb k v1 v2).1 = db.clock + 1 := rfl
    have h2 : (twoWrites db tb k v1 v2).2.1 = db.clock + 2 := rfl
    have hsA : DBSorted (putVersion (⟨db.clock + 1, db.tables⟩ : DB) tb k
        ⟨v1, db.clock + 1, false⟩) :=
      DBSorted_putVersion (fun p hp => hs p hp) tb k _
    have h3 : (twoWrites db tb k v1 v2).2.2
        = putVersion ⟨db.clock + 2,
            (putVersion (⟨db.clock + 1, db.tables⟩ : DB) tb k
              ⟨v1, db.clock + 1, false⟩).tables⟩ tb k ⟨v2, db.clock + 2, false⟩ := rfl
    have hVA : getVersions (tableRows (putVersion (⟨db.clock + 1, db.tables⟩ : DB)
          tb k ⟨v1, db.clock + 1, false⟩) tb) k
        = getVersions (tableRows db tb) k ++ [⟨v1, db.clock + 1, false⟩] := by
      rw [getVersions_putVersion_self (⟨db.clock + 1, db.tables⟩ : DB) tb k _
        (fun p hp => hs p hp)]
      rfl
    have hVB : getVersions (tableRows (twoWrites db tb k v1 v2).2.2 tb) k
        = (getVersions (tableRows db tb) k ++ [⟨v1, db.clock + 1, false⟩])
            ++ [⟨v2, db.clock + 2, false⟩] := by
      rw [h3, getVersions_putVersion_self (⟨db.clock + 2,
          (putVersion (⟨db.clock + 1, db.tables⟩ : DB) tb k
            ⟨v1, db.clock + 1, false⟩).tables⟩ : DB) tb k _
        (fun p hp => hsA p hp), ← hVA]
      rfl
    have hold : ∀ w ∈ getVersions (tableRows db tb) k, w.commit_ts ≤ db.clock :=
      getVersions_bounded hb tb k
    have hskip : ∀ w ∈ [(⟨v2, db.clock + 2, false⟩ : Version)],
        ¬ w.commit_ts ≤ db.clock + 1 := by
      intro w hw
      simp at hw
      rw [hw]
      show ¬ db.clock + 2 ≤ db.clock + 1
      omega
    have hts1 : ∀ w ∈ [(⟨v1, db.clock + 1, false⟩ : Version)],
        w.commit_ts = db.clock + 1 := by
      intro w hw
      simp at hw
      rw [hw]
    have hts2 : ∀ w ∈ [(⟨v2, db.clock + 2, false⟩ : Version)],
        w.commit_ts = db.clock + 2 := by
      intro w hw
      simp at hw
      rw [hw]
    have hmid : ∀ w ∈ getVersions (tableRows db tb) k ++ [(⟨v1, db.clock + 1, false⟩ : Version)],
        w.commit_ts ≤ db.clock + 1 := by
      intro w hw
      rcases List.mem_append.mp hw with hw1 | hw1
      · exact Nat.le_trans (hold w hw1) (Nat.le_succ _)
      · simp at hw1
        rw [hw1]
    refine ⟨by rw [h1, h2]; omega, ?_, ?_⟩
    · rw [h1]
      unfold getSnapshot
      rw [hVB, latestLe_append_big hskip,
        latestLe_append_last hold (Nat.le_succ _) hts1 (Nat.le_refl _) (by simp)]
      rfl
    · rw [h2]
      unfold getSnapshot
      rw [hVB, latestLe_append_last hmid (Nat.le_succ _) hts2 (Nat.le_refl _) (by simp)]
      rfl

/-- Witness for C2's overwrite scenario on a concrete database. -/
theorem snapshot_read_semantics_witness :
    DBSorted db0 ∧ DBBounded db0 ∧
    getSnapshot (twoWrites db0 "t" [1] [7] [9]).2.2 "t" [1]
      (twoWrites db0 "t" [1] [7] [9]).1 = some [7] ∧
    getSnapshot (twoWrites db0 "t" [1] [7] [9]).2.2 "t" [1]
      (twoWrites db0 "t" [1] [7] [9]).2.1 = some [9] :=
  ⟨by decide, by decide,
   (snapshot_read_semantics.2.2 db0 "t" [1] [7] [9] (by decide) (by decide)).2.1,
   (snapshot_read_semantics.2.2 db0 "t" [1] [7] [9] (by decide) (by decide)).2.2⟩

/-- C1: committing an Open transaction with buffer `B` either (on injected
internal failure) applies nothing and reports an error, or succeeds under one
freshly allocated commit timestamp `clock + 1`: any read below that
timestamp observes none of the buffered operations, and any read at or above
it observes exactly the last buffered operation for its key — so no reader
ever observes a strict subset of the buffer. -/
theorem commit_all_or_nothing (db : DB) (B : List Op)
    (hs : DBSorted db) (hb : DBBounded db) :
    txCommit true ⟨TxState.Open, B⟩ db
      = (DBX_ERR_DATABASE, ⟨TxState.Open, B⟩, db) ∧
    (txCommit false ⟨TxState.Open, B⟩ db).1 = DBX_OK ∧
    (txCommit false ⟨TxState.Open, B⟩ db).2.1 = ⟨TxState.Committed, B⟩ ∧
    (txCommit false ⟨TxState.Open, B⟩ db).2.2.clock = db.clock + 1 ∧
    (∀ t k T, T < db.clock + 1 →
      getSnapshot (txCommit false ⟨TxState.Open, B⟩ db).2.2 t k T
        = getSnapshot db t k T) ∧
    (∀ t k T, db.clock + 1 ≤ T →
      getSnapshot (txCommit false ⟨TxState.Open, B⟩ db).2.2 t k T
        = match lastWrite B t k with
          | none => getSnapshot db t k T
          | some (Op.ins _ _ v) => some v
          | some (Op.del _ _) => none) := by
  have hdb : (txCommit false ⟨TxState.Open, B⟩ db).2.2
      = applyBufferAt (db.clock + 1) B ⟨db.clock + 1, db.tables⟩ := rfl
  have hsd : DBSorted (⟨db.clock + 1, db.tables⟩ : DB) := fun p hp => hs p hp
  have hver : ∀ t k,
      getVersions (tableRows
          (applyBufferAt (db.clock + 1) B ⟨db.clock + 1, db.tables⟩) t) k
        = getVersions (tableRows db t) k
            ++ (opsOn B t k).map (verOf (db.clock + 1)) := by
    intro t k
    exact getVersions_applyBufferAt (db.clock + 1) B ⟨db.clock + 1, db.tables⟩ hsd t k
  refine ⟨rfl, rfl, rfl, ?_, ?_, ?_⟩
  · rw [hdb, clock_applyBufferAt]
  · intro t k T hT
    rw [hdb]
    unfold getSnapshot
    rw [hver t k, latestLe_append_big ?_]
    intro v hv
    rcases List.mem_map.mp hv with ⟨op, _, hop⟩
    rw [← hop, verOf_commit_ts]
    omega
  · intro t k T hT
    rw [hdb]
    unfold getSnapshot lastWrite
    cases ho : opsOn B t k with
    | nil =>
      rw [hver t k, ho]
      simp
    | cons o os =>
      rw [hver t k, ho,
        @latestLe_append_last _ db.clock (db.clock + 1) _ _
          (getVersions_bounded hb t k) (Nat.le_succ _)
          (by
            intro v hv
            rcases List.mem_map.mp hv with ⟨op, _, hop⟩
            rw [← hop, verOf_commit_ts])
          hT (by simp),
        getLast?_map]
      have hex : ∃ lop, (o :: os).getLast? = some lop ∧ lop ∈ o :: os :=
        ⟨(o :: os).getLast (by simp), List.getLast?_eq_getLast _ _,
          List.getLast_mem _⟩
      rcases hex with ⟨lop, hl, _⟩
      rw [hl]
      cases lop with
      | ins t0 k0 v0 => simp [verOf]
      | del t0 k0 => simp [verOf]

/-- Witness for C1 on a concrete one-element buffer. -/
theorem commit_all_or_nothing_witness :
    DBSorted db0 ∧ DBBounded db0 ∧
    txCommit true ⟨TxState.Open, [Op.ins "t" [1] [2]]⟩ db0
      = (DBX_ERR_DATABASE, ⟨TxState.Open, [Op.ins "t" [1] [2]]⟩, db0) ∧
    getSnapshot (txCommit false ⟨TxState.Open, [Op.ins "t" [1] [2]]⟩ db0).2.2
      "t" [1] 1 = some [2] :=
  ⟨by decide, by decide,
   (commit_all_or_nothing db0 [Op.ins "t" [1] [2]] (by decide) (by decide)).1,
   by
     rw [(commit_all_or_nothing db0 [Op.ins "t" [1] [2]] (by decide)
       (by decide)).2.2.2.2.2 "t" [1] 1 (by decide)]
     rfl⟩

/-- Witness for C6 on a concrete two-key table. -/
theorem scan_range_semantics_witness :
    DBSorted (insert (insert db0 "t" [1] [7]) "t" [2] [8]) ∧
    ((([1] : Key), ([7] : Val)) ∈
      range (insert (insert db0 "t" [1] [7]) "t" [2] [8]) "t" [1] [2] ↔
      get (insert (insert db0 "t" [1] [7]) "t" [2] [8]) "t" [1] = some [7] ∧
        lexLe [1] [1] = true ∧ lexLt [1] [2] = true) :=
  ⟨by decide,
   (scan_range_semantics (insert (insert db0 "t" [1] [7]) "t" [2] [8]) "t"
     [1] [2] [1] [7] (by decide)).2.2.2.1⟩

end DBX
